import Mathlib

/-!
Verification of the Peirce's Criterion outlier-rejection engine of
`src/plots/ash_plot/ASH/peirce.py` (class `PeirceCriteria`).

The engine is embedded shallowly over the real numbers:

* Python floats become `ℝ`; the IEEE infinities that `PeirceFunc` uses as
  domain sentinels become the explicit codomain `PVal` (`pinf`, `ninf`, or a
  finite real), so that "never NaN" and the sign-based bracketing logic are
  faithfully representable.
* `scipy.special.erfc` is an external library function, not code of this
  repository, so the whole development is parametrised by an arbitrary
  function `erfc : ℝ → ℝ` standing for it; every theorem below holds for
  every such function, hence in particular for scipy's.
* The `while` loops become structural/well-founded recursion mirroring the
  source line by line; the loop of `PeirceCriteria.__init__` additionally
  returns ghost instrumentation (which break terminated it, how many root
  finder calls were made, and the list of committed rounds) that is fully
  determined by the source's control flow.
-/

namespace BottlePlotter

/-- Value of the Peirce objective function as the Python code sees it: a
float that is either `np.inf`, `-np.inf`, or an ordinary finite real.
(`PeirceFunc` never produces NaN, which is part of what is proved below.) -/
inductive PVal where
  | pinf : PVal
  | ninf : PVal
  | fin : ℝ → PVal

/-- The attributes `self.RejVec`, `self.AcceptVec`, `self.x2` of
`PeirceCriteria`: rejection mask, acceptance mask and filtered dataset. -/
structure RejectionResult where
  RejVec : List Bool
  AcceptVec : List Bool
  x2 : List ℝ

/-- Which of the three `break`/stop sites of the rejection loop fired:
`exhausted` for the `N//2 <= n` check (line 133), `unsolvable` for
`PeirceBisect` returning `None` (line 141), `stalled` for a round whose
rejection count did not strictly increase (line 167). -/
inductive TermReason where
  | exhausted : TermReason
  | unsolvable : TermReason
  | stalled : TermReason
  deriving DecidableEq

/-- Result of the rejection loop together with ghost instrumentation:
`res` is the final attribute triple, `finalPrev` the final value of
`Rej1`/`prev_rejected_count`, `reason` the break site that terminated the
loop, `rounds` the number of `PeirceBisect` calls made, and `trace` the
list of committed rounds as (rejected count, rejection mask) pairs in
chronological order. -/
structure LoopOut where
  res : RejectionResult
  finalPrev : ℕ
  reason : TermReason
  rounds : ℕ
  trace : List (ℕ × List Bool)

/-- Boolean-mask indexing `x_data[mask]` of numpy: the elements of `x`
whose mask entry is `true`. -/
def maskFilter (x : List ℝ) (mask : List Bool) : List ℝ :=
  (x.zip mask).filterMap fun p => if p.2 then some p.1 else none

/-- The elementwise comparison `delta > sigma * R` (line 151) producing the
candidate rejection mask `current_RejVec_temp`. -/
noncomputable def rejMask (delta : List ℝ) (sigma R : ℝ) : List Bool :=
  delta.map fun d => if sigma * R < d then true else false

/-- The mean `np.mean(x_data)` (line 104). -/
noncomputable def npMean (x : List ℝ) : ℝ := x.sum / x.length

/-- The sample standard deviation `np.std(x_data, ddof=1)` (line 105):
square root of the sum of squared deviations divided by `N - 1`. -/
noncomputable def npStd1 (x : List ℝ) : ℝ :=
  Real.sqrt ((x.map fun v => (v - npMean x) ^ 2).sum / ((x.length : ℝ) - 1))

/-- The objective function `PeirceCriteria.PeirceFunc(N, n, m, R)`
(lines 183-257), with `erfc` standing for `scipy.special.erfc`.  The
branch structure mirrors the source: the `n`/`N-n`/`N` guard (line 224),
the `lambda`-squared guard (line 234), the erfc underflow branch
(line 242, which forces the first `-inf` branch of lines 247-249), the
`lamb == 0` branch of line 250 (unreachable over exact reals but kept),
and otherwise the finite value of line 253. -/
noncomputable def PeirceFunc (erfc : ℝ → ℝ) (N n m : ℤ) (R : ℝ) : PVal :=
  if n ≤ 0 ∨ N - n ≤ 0 ∨ N ≤ 0 then .pinf
  else
    let logQN : ℝ := (n : ℝ) * Real.log (n : ℝ)
      + ((N : ℝ) - (n : ℝ)) * Real.log ((N : ℝ) - (n : ℝ))
      - (N : ℝ) * Real.log (N : ℝ)
    let lambNum : ℝ := (N : ℝ) - (m : ℝ) - (n : ℝ) * R * R
    let lambDen : ℝ := (N : ℝ) - (m : ℝ) - (n : ℝ)
    if lambNum ≤ 0 ∨ lambDen ≤ 0 then .pinf
    else
      let lamb : ℝ := Real.sqrt (lambNum / lambDen)
      let erfcVal : ℝ := erfc (R / Real.sqrt 2)
      if erfcVal ≤ 1e-300 then .ninf
      else if lamb = 0 then .ninf
      else .fin (((N : ℝ) - (n : ℝ)) * Real.log lamb
        + 0.5 * (n : ℝ) * (R * R - 1)
        + (n : ℝ) * Real.log erfcVal - logQN)

/-- The bisection `while` loop of `PeirceBisect` (lines 313-334), with the
remaining iteration budget as fuel (`fuel = max_iters - iter_count`).
Returns the `Option` result together with the number of iterations of the
loop body that were executed.  At each entry the current midpoint `xo` and
`f xo` are evaluated; `|f xo| ≤ eps` exits returning `xo`; an exhausted
budget with `|f xo| > eps` returns `None` (line 331); an infinite `f xo`
inside the body returns `None` (line 319); otherwise the bracket shrinks
keeping the sign of the retained endpoint value `fxl`. -/
noncomputable def bisectGo (f : ℝ → PVal) (eps : ℝ) :
    ℕ → ℝ → ℝ → ℝ → Option ℝ × ℕ
  | 0, xl, xr, _ =>
    let xo := (xl + xr) / 2
    match f xo with
    | .fin v => if |v| ≤ eps then (some xo, 0) else (none, 0)
    | _ => (none, 0)
  | fuel + 1, xl, xr, fxl =>
    let xo := (xl + xr) / 2
    match f xo with
    | .fin v =>
      if |v| ≤ eps then (some xo, 0)
      else
        let next := if fxl * v < 0 then bisectGo f eps fuel xl xo fxl
          else bisectGo f eps fuel xo xr v
        (next.1, next.2 + 1)
    | _ => (none, 0)

/-- The root finder `PeirceCriteria.PeirceBisect(N, n, m)` (lines 259-334):
guard checks, bracket construction `[0.1, sqrt((N-m)/n) - eps]`, the
NaN/inf/sign bracketing check of lines 307-311 (a non-finite `PVal` is
exactly the `isinf` case; NaN cannot arise), then the bisection loop with
a budget of 100 iterations. -/
noncomputable def PeirceBisect (erfc : ℝ → ℝ) (N n m : ℤ) : Option ℝ :=
  let eps : ℝ := 2e-12
  let xl : ℝ := 0.1
  if n ≤ 0 ∨ N - m ≤ 0 then none
  else
    let xrsq : ℝ := ((N : ℝ) - (m : ℝ)) / (n : ℝ)
    if xrsq ≤ 0 then none
    else if xrsq ≤ xl ^ 2 then none
    else
      let xr := Real.sqrt xrsq - eps
      if xl ≥ xr then none
      else
        match PeirceFunc erfc N n m xl, PeirceFunc erfc N n m xr with
        | .fin a, .fin b =>
          if a * b > 0 then none
          else (bisectGo (PeirceFunc erfc N n m) eps 100 xl xr a).1
        | _, _ => none

/-- The `while(1)` rejection loop of `PeirceCriteria.__init__`
(lines 128-169), parametrised by the root finder it calls.  `x` is the
original dataset, `delta` the residuals, `sigma` the standard deviation,
`N` the dataset length, `m` the number of unknowns, `n` the current
suspect count (`n_suspect`), `prev` the previously committed rejection
count (`prev_rejected_count`), and `st` the current attribute triple. -/
noncomputable def peirceGo (bisect : ℤ → ℤ → ℤ → Option ℝ) (x delta : List ℝ)
    (sigma : ℝ) (N : ℕ) (m : ℤ) (n prev : ℕ) (st : RejectionResult) : LoopOut :=
  if N / 2 ≤ n then ⟨st, prev, .exhausted, 0, []⟩
  else
    match bisect (N : ℤ) (n : ℤ) m with
    | none => ⟨st, prev, .unsolvable, 1, []⟩
    | some R =>
      let rej := rejMask delta sigma R
      let cnt := rej.count true
      if prev < cnt then
        let acc := rej.map fun b => !b
        let out := peirceGo bisect x delta sigma N m (n + 1) cnt
          ⟨rej, acc, maskFilter x acc⟩
        ⟨out.res, out.finalPrev, out.reason, out.rounds + 1, (cnt, rej) :: out.trace⟩
      else ⟨st, prev, .stalled, 1, []⟩
termination_by N / 2 - n
decreasing_by omega

/-- The all-accepted attribute triple of lines 124-126 (also rebuilt by the
lines 171-180 fallback): no rejections, everything accepted, `x2` the whole
dataset. -/
def allAccepted (x : List ℝ) : RejectionResult :=
  ⟨List.replicate x.length false, List.replicate x.length true, x⟩

/-- The body of `PeirceCriteria.__init__` (lines 101-180), with the root
finder as a parameter: compute the statistics and residuals once from the
original dataset, run the rejection loop from `n_suspect = 1`,
`prev_rejected_count = 0` and the all-accepted attribute triple, and
finally (lines 171-176) reset the attributes to the all-accepted triple
when no round was ever committed. -/
noncomputable def PeirceRun (bisect : ℤ → ℤ → ℤ → Option ℝ) (x : List ℝ)
    (m : ℤ) : LoopOut :=
  let N := x.length
  let xbar := npMean x
  let sigma := npStd1 x
  let delta := x.map fun v => |v - xbar|
  let out := peirceGo bisect x delta sigma N m 1 0 (allAccepted x)
  if out.finalPrev = 0 then ⟨allAccepted x, out.finalPrev, out.reason, out.rounds, out.trace⟩
  else out

/-- The engine `PeirceCriteria(x, m)` itself: the rejection loop driven by
the actual root finder `PeirceBisect`, still parametric in the external
`erfc`. -/
noncomputable def PeirceCriteria (erfc : ℝ → ℝ) (x : List ℝ) (m : ℤ) : LoopOut :=
  PeirceRun (PeirceBisect erfc) x m


/-! ### Lemmas about the bisection loop and the root finder -/

theorem bisectGo_steps_le (f : ℝ → PVal) (eps : ℝ) :
    ∀ (fuel : ℕ) (xl xr fxl : ℝ), (bisectGo f eps fuel xl xr fxl).2 ≤ fuel := by
  intro fuel
  induction fuel with
  | zero =>
    intro xl xr fxl
    simp only [bisectGo]
    rcases f ((xl + xr) / 2) with _ | _ | v
    · exact Nat.le_refl 0
    · exact Nat.le_refl 0
    · dsimp only
      split <;> exact Nat.le_refl 0
  | succ fuel ih =>
    intro xl xr fxl
    simp only [bisectGo]
    rcases f ((xl + xr) / 2) with _ | _ | v
    · exact Nat.zero_le _
    · exact Nat.zero_le _
    · dsimp only
      split
      · exact Nat.zero_le _
      · split
        · exact Nat.succ_le_succ (ih _ _ _)
        · exact Nat.succ_le_succ (ih _ _ _)

theorem bisectGo_some_conv (f : ℝ → PVal) (eps : ℝ) :
    ∀ (fuel : ℕ) (xl xr fxl xo : ℝ),
      (bisectGo f eps fuel xl xr fxl).1 = some xo →
      ∃ v, f xo = PVal.fin v ∧ |v| ≤ eps := by
  intro fuel
  induction fuel with
  | zero =>
    intro xl xr fxl xo h
    simp only [bisectGo] at h
    rcases hf : f ((xl + xr) / 2) with _ | _ | v <;> rw [hf] at h
    · exact absurd h (by simp)
    · exact absurd h (by simp)
    · dsimp only at h
      split at h
      · rename_i hv
        refine ⟨v, ?_, hv⟩
        obtain rfl : xo = (xl + xr) / 2 := by
          simpa using h.symm
        exact hf
      · exact absurd h (by simp)
  | succ fuel ih =>
    intro xl xr fxl xo h
    simp only [bisectGo] at h
    rcases hf : f ((xl + xr) / 2) with _ | _ | v <;> rw [hf] at h
    · exact absurd h (by simp)
    · exact absurd h (by simp)
    · dsimp only at h
      split at h
      · rename_i hv
        refine ⟨v, ?_, hv⟩
        obtain rfl : xo = (xl + xr) / 2 := by simpa using h.symm
        exact hf
      · dsimp only at h
        split at h
        · exact ih _ _ _ _ h
        · exact ih _ _ _ _ h

theorem bisectGo_some_mem (f : ℝ → PVal) (eps : ℝ) :
    ∀ (fuel : ℕ) (xl xr fxl xo : ℝ), xl < xr →
      (bisectGo f eps fuel xl xr fxl).1 = some xo →
      xl < xo ∧ xo < xr := by
  intro fuel
  induction fuel with
  | zero =>
    intro xl xr fxl xo hlt h
    simp only [bisectGo] at h
    rcases hf : f ((xl + xr) / 2) with _ | _ | v <;> rw [hf] at h
    · exact absurd h (by simp)
    · exact absurd h (by simp)
    · dsimp only at h
      split at h
      · obtain rfl : xo = (xl + xr) / 2 := by simpa using h.symm
        constructor <;> linarith
      · exact absurd h (by simp)
  | succ fuel ih =>
    intro xl xr fxl xo hlt h
    simp only [bisectGo] at h
    rcases hf : f ((xl + xr) / 2) with _ | _ | v <;> rw [hf] at h
    · exact absurd h (by simp)
    · exact absurd h (by simp)
    · dsimp only at h
      split at h
      · obtain rfl : xo = (xl + xr) / 2 := by simpa using h.symm
        constructor <;> linarith
      · dsimp only at h
        split at h
        · have := ih xl ((xl + xr) / 2) fxl xo (by linarith) h
          exact ⟨this.1, by linarith [this.2]⟩
        · have := ih ((xl + xr) / 2) xr v xo (by linarith) h
          exact ⟨by linarith [this.1], this.2⟩

theorem PeirceBisect_some (erfc : ℝ → ℝ) (N n m : ℤ) (R : ℝ)
    (h : PeirceBisect erfc N n m = some R) :
    (∃ v, PeirceFunc erfc N n m R = PVal.fin v ∧ |v| ≤ 2e-12) ∧
    0.1 < R ∧ R < Real.sqrt (((N : ℝ) - (m : ℝ)) / (n : ℝ)) := by
  unfold PeirceBisect at h
  split at h
  · exact absurd h (by simp)
  · dsimp only at h
    split at h
    · exact absurd h (by simp)
    · split at h
      · exact absurd h (by simp)
      · split at h
        · exact absurd h (by simp)
        · rename_i hxlr
          split at h
          · rename_i a b hfa hfb
            split at h
            · exact absurd h (by simp)
            · have hlt : (0.1 : ℝ) < Real.sqrt (((N : ℝ) - (m : ℝ)) / (n : ℝ)) - 2e-12 := by
                exact lt_of_not_le (by exact_mod_cast hxlr)
              have hmem := bisectGo_some_mem (PeirceFunc erfc N n m) 2e-12 100 0.1
                (Real.sqrt (((N : ℝ) - (m : ℝ)) / (n : ℝ)) - 2e-12) a R hlt h
              have hconv := bisectGo_some_conv (PeirceFunc erfc N n m) 2e-12 100 0.1
                (Real.sqrt (((N : ℝ) - (m : ℝ)) / (n : ℝ)) - 2e-12) a R h
              exact ⟨hconv, hmem.1, by linarith [hmem.2]⟩
          · exact absurd h (by simp)

/-! ### Step equations for the rejection loop -/

theorem peirceGo_exhausted (bisect : ℤ → ℤ → ℤ → Option ℝ) (x delta : List ℝ)
    (sigma : ℝ) (N : ℕ) (m : ℤ) (n prev : ℕ) (st : RejectionResult)
    (h : N / 2 ≤ n) :
    peirceGo bisect x delta sigma N m n prev st = ⟨st, prev, .exhausted, 0, []⟩ := by
  rw [peirceGo]
  simp [h]

theorem peirceGo_unsolvable (bisect : ℤ → ℤ → ℤ → Option ℝ) (x delta : List ℝ)
    (sigma : ℝ) (N : ℕ) (m : ℤ) (n prev : ℕ) (st : RejectionResult)
    (h : ¬ N / 2 ≤ n) (hb : bisect (N : ℤ) (n : ℤ) m = none) :
    peirceGo bisect x delta sigma N m n prev st = ⟨st, prev, .unsolvable, 1, []⟩ := by
  rw [peirceGo]
  simp [h, hb]

theorem peirceGo_commit (bisect : ℤ → ℤ → ℤ → Option ℝ) (x delta : List ℝ)
    (sigma : ℝ) (N : ℕ) (m : ℤ) (n prev : ℕ) (st : RejectionResult) (R : ℝ)
    (h : ¬ N / 2 ≤ n) (hb : bisect (N : ℤ) (n : ℤ) m = some R)
    (hc : prev < (rejMask delta sigma R).count true) :
    peirceGo bisect x delta sigma N m n prev st =
      let rej := rejMask delta sigma R
      let acc := rej.map fun b => !b
      let out := peirceGo bisect x delta sigma N m (n + 1) (rej.count true)
        ⟨rej, acc, maskFilter x acc⟩
      ⟨out.res, out.finalPrev, out.reason, out.rounds + 1, (rej.count true, rej) :: out.trace⟩ := by
  rw [peirceGo]
  simp [h, hb, hc]

theorem peirceGo_stalled (bisect : ℤ → ℤ → ℤ → Option ℝ) (x delta : List ℝ)
    (sigma : ℝ) (N : ℕ) (m : ℤ) (n prev : ℕ) (st : RejectionResult) (R : ℝ)
    (h : ¬ N / 2 ≤ n) (hb : bisect (N : ℤ) (n : ℤ) m = some R)
    (hc : ¬ prev < (rejMask delta sigma R).count true) :
    peirceGo bisect x delta sigma N m n prev st = ⟨st, prev, .stalled, 1, []⟩ := by
  rw [peirceGo]
  simp [h, hb, hc]


/-! ### Mask lemmas and rejection-loop invariants -/

/-- Pointwise order on boolean masks: every index rejected in the first is
rejected in the second. -/
def maskLe (r s : List Bool) : Prop :=
  ∀ i : ℕ, r[i]? = some true → s[i]? = some true

theorem maskFilter_replicate_true (x : List ℝ) :
    maskFilter x (List.replicate x.length true) = x := by
  induction x with
  | nil => rfl
  | cons a l ih =>
    simp [maskFilter, List.replicate] at ih ⊢
    exact ih

theorem maskFilter_length (x : List ℝ) (mask : List Bool)
    (h : mask.length = x.length) :
    (maskFilter x mask).length = mask.count true := by
  induction x generalizing mask with
  | nil =>
    cases mask with
    | nil => rfl
    | cons b bs => simp at h
  | cons a l ih =>
    cases mask with
    | nil => simp at h
    | cons b bs =>
      simp at h
      cases b with
      | false => simp [maskFilter, List.count_cons] at ih ⊢; exact ih bs h
      | true => simp [maskFilter, List.count_cons] at ih ⊢; exact ih bs h

theorem count_true_map_le (l : List ℝ) (p q : ℝ → Bool)
    (h : ∀ d, p d = true → q d = true) :
    (l.map p).count true ≤ (l.map q).count true := by
  induction l with
  | nil => simp
  | cons a l ih =>
    simp only [List.map_cons, List.count_cons]
    rcases hp : p a with _ | _
    · rcases hq : q a with _ | _ <;> simp <;> omega
    · rw [h a hp]
      simp
      omega

theorem rejMask_pointwise (delta : List ℝ) (sigma R1 R2 : ℝ)
    (h : sigma * R2 ≤ sigma * R1) :
    maskLe (rejMask delta sigma R1) (rejMask delta sigma R2) := by
  intro i hi
  simp only [rejMask, List.getElem?_map] at hi ⊢
  rcases hd : delta[i]? with _ | d
  · rw [hd] at hi
    exact absurd hi (by simp)
  · rw [hd] at hi
    simp only [Option.map_some'] at hi ⊢
    split at hi
    · rename_i hlt
      rw [if_pos (lt_of_le_of_lt h hlt)]
    · exact absurd hi (by simp)

theorem rejMask_le_of_count_lt (delta : List ℝ) (sigma R1 R2 : ℝ)
    (h : (rejMask delta sigma R1).count true < (rejMask delta sigma R2).count true) :
    maskLe (rejMask delta sigma R1) (rejMask delta sigma R2) := by
  rcases le_total (sigma * R2) (sigma * R1) with hle | hle
  · exact rejMask_pointwise delta sigma R1 R2 hle
  · exfalso
    have hc : (rejMask delta sigma R2).count true ≤ (rejMask delta sigma R1).count true := by
      apply count_true_map_le
      intro d hd
      split at hd
      · rename_i hlt
        exact if_pos (lt_of_le_of_lt hle hlt)
      · exact absurd hd (by simp)
    omega

theorem peirceGo_res_inv (bisect : ℤ → ℤ → ℤ → Option ℝ) (x delta : List ℝ)
    (sigma : ℝ) (N : ℕ) (m : ℤ) (P : RejectionResult → Prop)
    (hP : ∀ (k : ℕ) (R : ℝ), bisect (N : ℤ) (k : ℤ) m = some R →
      P ⟨rejMask delta sigma R, (rejMask delta sigma R).map fun b => !b,
        maskFilter x ((rejMask delta sigma R).map fun b => !b)⟩) :
    ∀ (n prev : ℕ) (st : RejectionResult),
      P st → P (peirceGo bisect x delta sigma N m n prev st).res := by
  intro n prev st
  induction n, prev, st using peirceGo.induct bisect x delta sigma N m with
  | case1 n prev st h =>
    rw [peirceGo_exhausted bisect x delta sigma N m n prev st h]
    exact id
  | case2 n prev st h hb =>
    rw [peirceGo_unsolvable bisect x delta sigma N m n prev st h hb]
    exact id
  | case3 n prev st h R hb rej cnt hcnt acc ih =>
    have hcnt' : prev < (rejMask delta sigma R).count true := hcnt
    rw [peirceGo_commit bisect x delta sigma N m n prev st R h hb hcnt']
    intro _
    exact ih (hP n R hb)
  | case4 n prev st h R hb rej cnt hcnt =>
    have hcnt' : ¬ prev < (rejMask delta sigma R).count true := hcnt
    rw [peirceGo_stalled bisect x delta sigma N m n prev st R h hb hcnt']
    exact id

theorem peirceGo_rounds_le (bisect : ℤ → ℤ → ℤ → Option ℝ) (x delta : List ℝ)
    (sigma : ℝ) (N : ℕ) (m : ℤ) :
    ∀ (n prev : ℕ) (st : RejectionResult),
      (peirceGo bisect x delta sigma N m n prev st).rounds ≤ N / 2 - n := by
  intro n prev st
  induction n, prev, st using peirceGo.induct bisect x delta sigma N m with
  | case1 n prev st h =>
    rw [peirceGo_exhausted bisect x delta sigma N m n prev st h]
    exact Nat.zero_le _
  | case2 n prev st h hb =>
    rw [peirceGo_unsolvable bisect x delta sigma N m n prev st h hb]
    simp only
    omega
  | case3 n prev st h R hb rej cnt hcnt acc ih =>
    have hcnt' : prev < (rejMask delta sigma R).count true := hcnt
    have ih' : (peirceGo bisect x delta sigma N m (n + 1)
        ((rejMask delta sigma R).count true)
        ⟨rejMask delta sigma R, (rejMask delta sigma R).map fun b => !b,
          maskFilter x ((rejMask delta sigma R).map fun b => !b)⟩).rounds
        ≤ N / 2 - (n + 1) := ih
    rw [peirceGo_commit bisect x delta sigma N m n prev st R h hb hcnt']
    simp only
    omega
  | case4 n prev st h R hb rej cnt hcnt =>
    have hcnt' : ¬ prev < (rejMask delta sigma R).count true := hcnt
    rw [peirceGo_stalled bisect x delta sigma N m n prev st R h hb hcnt']
    simp only
    omega

/-- The relation along the committed-round trace: the rejected count
strictly increases and the rejection mask only grows. -/
def traceRel (a b : ℕ × List Bool) : Prop := a.1 < b.1 ∧ maskLe a.2 b.2

theorem peirceGo_trace_chain (bisect : ℤ → ℤ → ℤ → Option ℝ) (x delta : List ℝ)
    (sigma : ℝ) (N : ℕ) (m : ℤ) :
    ∀ (n prev : ℕ) (st : RejectionResult) (bm : List Bool),
      ((prev = 0 ∧ bm = List.replicate N false) ∨
        (∃ R, bm = rejMask delta sigma R ∧ prev = bm.count true)) →
      List.Chain traceRel (prev, bm)
        (peirceGo bisect x delta sigma N m n prev st).trace := by
  intro n prev st
  induction n, prev, st using peirceGo.induct bisect x delta sigma N m with
  | case1 n prev st h =>
    intro bm _
    rw [peirceGo_exhausted bisect x delta sigma N m n prev st h]
    exact List.Chain.nil
  | case2 n prev st h hb =>
    intro bm _
    rw [peirceGo_unsolvable bisect x delta sigma N m n prev st h hb]
    exact List.Chain.nil
  | case3 n prev st h R hb rej cnt hcnt acc ih =>
    intro bm hbm
    have hcnt' : prev < (rejMask delta sigma R).count true := hcnt
    rw [peirceGo_commit bisect x delta sigma N m n prev st R h hb hcnt']
    simp only
    constructor
    · refine ⟨hcnt', ?_⟩
      rcases hbm with ⟨hprev, rfl⟩ | ⟨R0, rfl, hprev⟩
      · intro i hi
        exfalso
        rcases Nat.lt_or_ge i N with hiN | hiN
        · rw [List.getElem?_replicate, if_pos hiN] at hi
          exact Bool.false_ne_true (Option.some_injective _ hi)
        · rw [List.getElem?_replicate, if_neg (Nat.not_lt.mpr hiN)] at hi
          exact Option.noConfusion hi
      · subst hprev
        exact rejMask_le_of_count_lt delta sigma R0 R hcnt'
    · exact ih (rejMask delta sigma R) (Or.inr ⟨R, rfl, rfl⟩)
  | case4 n prev st h R hb rej cnt hcnt =>
    intro bm _
    have hcnt' : ¬ prev < (rejMask delta sigma R).count true := hcnt
    rw [peirceGo_stalled bisect x delta sigma N m n prev st R h hb hcnt']
    exact List.Chain.nil


/-! ### Guard behaviour of the objective function -/

/-- The disjunction of every condition under which `PeirceFunc` returns
`np.inf`: the guard of line 224 and the lambda-squared guard of line 234. -/
def peirceGuardFail (N n m : ℤ) (R : ℝ) : Prop :=
  n ≤ 0 ∨ N - n ≤ 0 ∨ N ≤ 0 ∨
    ((N : ℝ) - (m : ℝ) - (n : ℝ) * R * R ≤ 0) ∨ ((N : ℝ) - (m : ℝ) - (n : ℝ) ≤ 0)

theorem PeirceFunc_pinf (erfc : ℝ → ℝ) (N n m : ℤ) (R : ℝ)
    (h : peirceGuardFail N n m R) : PeirceFunc erfc N n m R = PVal.pinf := by
  unfold PeirceFunc
  by_cases h1 : n ≤ 0 ∨ N - n ≤ 0 ∨ N ≤ 0
  · rw [if_pos h1]
  · rw [if_neg h1]
    dsimp only
    have h2 : (N : ℝ) - (m : ℝ) - (n : ℝ) * R * R ≤ 0 ∨ (N : ℝ) - (m : ℝ) - (n : ℝ) ≤ 0 := by
      rcases h with h | h | h | h | h
      · exact absurd (Or.inl h) h1
      · exact absurd (Or.inr (Or.inl h)) h1
      · exact absurd (Or.inr (Or.inr h)) h1
      · exact Or.inl h
      · exact Or.inr h
    rw [if_pos h2]

theorem PeirceFunc_ninf (erfc : ℝ → ℝ) (N n m : ℤ) (R : ℝ)
    (h : ¬ peirceGuardFail N n m R) (hu : erfc (R / Real.sqrt 2) ≤ 1e-300) :
    PeirceFunc erfc N n m R = PVal.ninf := by
  unfold PeirceFunc
  rw [if_neg (fun hc => h (by
    rcases hc with hc | hc | hc
    · exact Or.inl hc
    · exact Or.inr (Or.inl hc)
    · exact Or.inr (Or.inr (Or.inl hc))))]
  dsimp only
  rw [if_neg (fun hc => h (by
    rcases hc with hc | hc
    · exact Or.inr (Or.inr (Or.inr (Or.inl hc)))
    · exact Or.inr (Or.inr (Or.inr (Or.inr hc)))))]
  rw [if_pos hu]

theorem PeirceBisect_none_small (erfc : ℝ → ℝ) (N m : ℤ) (h : N - m ≤ 1) :
    PeirceBisect erfc N 1 m = none := by
  by_cases h0 : N - m ≤ 0
  · unfold PeirceBisect
    rw [if_pos (Or.inr h0)]
  · have hNm : N - m = 1 := by omega
    have hcast : (N : ℝ) - (m : ℝ) = 1 := by
      have hc := congrArg (fun z : ℤ => (z : ℝ)) hNm
      push_cast at hc
      linarith
    have hpinf : PeirceFunc erfc N 1 m 0.1 = PVal.pinf := by
      apply PeirceFunc_pinf
      right; right; right; right
      push_cast
      linarith
    unfold PeirceBisect
    rw [if_neg (by push_neg; exact ⟨by norm_num, by omega⟩)]
    dsimp only
    rw [hcast]
    rw [if_neg (by norm_num), if_neg (by norm_num)]
    rw [if_neg (by
      rw [show ((1 : ℤ) : ℝ) = (1 : ℝ) by norm_num]
      rw [show (1 : ℝ) / 1 = 1 by norm_num, Real.sqrt_one]
      norm_num)]
    rw [hpinf]


/-! ### Run-level lemmas and the first claim theorems -/

theorem PeirceRun_res_inv (bisect : ℤ → ℤ → ℤ → Option ℝ) (x : List ℝ) (m : ℤ)
    (P : RejectionResult → Prop)
    (hP : ∀ (k : ℕ) (R : ℝ), bisect (x.length : ℤ) (k : ℤ) m = some R →
      P ⟨rejMask (x.map fun v => |v - npMean x|) (npStd1 x) R,
        (rejMask (x.map fun v => |v - npMean x|) (npStd1 x) R).map fun b => !b,
        maskFilter x ((rejMask (x.map fun v => |v - npMean x|) (npStd1 x) R).map fun b => !b)⟩)
    (hinit : P (allAccepted x)) :
    P (PeirceRun bisect x m).res := by
  unfold PeirceRun
  dsimp only
  split
  · exact hinit
  · exact peirceGo_res_inv bisect x (x.map fun v => |v - npMean x|) (npStd1 x)
      x.length m P hP 1 0 (allAccepted x) hinit

theorem PeirceRun_trace (bisect : ℤ → ℤ → ℤ → Option ℝ) (x : List ℝ) (m : ℤ) :
    (PeirceRun bisect x m).trace =
      (peirceGo bisect x (x.map fun v => |v - npMean x|) (npStd1 x)
        x.length m 1 0 (allAccepted x)).trace := by
  unfold PeirceRun
  dsimp only
  split <;> rfl

theorem PeirceRun_rounds (bisect : ℤ → ℤ → ℤ → Option ℝ) (x : List ℝ) (m : ℤ) :
    (PeirceRun bisect x m).rounds =
      (peirceGo bisect x (x.map fun v => |v - npMean x|) (npStd1 x)
        x.length m 1 0 (allAccepted x)).rounds := by
  unfold PeirceRun
  dsimp only
  split <;> rfl

theorem allAccepted_good (x : List ℝ) :
    (allAccepted x).RejVec.length = x.length ∧
    (allAccepted x).AcceptVec = (allAccepted x).RejVec.map (fun b => !b) ∧
    (allAccepted x).x2 = maskFilter x (allAccepted x).AcceptVec := by
  refine ⟨by simp [allAccepted], ?_, ?_⟩
  · simp [allAccepted, List.map_replicate]
  · exact (maskFilter_replicate_true x).symm

/-- Claim C1 (mask consistency): for every input sample and every m, the
accepted mask is the elementwise complement of the rejected mask, both
masks have the sample's length, the filtered output is the sample
restricted to the accepted indices, and its length is the number of
accepted entries. -/
theorem peirce_mask_consistency (erfc : ℝ → ℝ) (x : List ℝ) (m : ℤ) :
    ((PeirceCriteria erfc x m).res.RejVec.length = x.length) ∧
    ((PeirceCriteria erfc x m).res.AcceptVec.length = x.length) ∧
    ((PeirceCriteria erfc x m).res.AcceptVec
      = (PeirceCriteria erfc x m).res.RejVec.map fun b => !b) ∧
    ((PeirceCriteria erfc x m).res.x2
      = maskFilter x (PeirceCriteria erfc x m).res.AcceptVec) ∧
    ((PeirceCriteria erfc x m).res.x2.length
      = (PeirceCriteria erfc x m).res.AcceptVec.count true) := by
  have key : ((PeirceCriteria erfc x m).res.RejVec.length = x.length) ∧
      ((PeirceCriteria erfc x m).res.AcceptVec
        = (PeirceCriteria erfc x m).res.RejVec.map fun b => !b) ∧
      ((PeirceCriteria erfc x m).res.x2
        = maskFilter x (PeirceCriteria erfc x m).res.AcceptVec) := by
    apply PeirceRun_res_inv (PeirceBisect erfc) x m
      (fun st => st.RejVec.length = x.length ∧
        st.AcceptVec = st.RejVec.map (fun b => !b) ∧
        st.x2 = maskFilter x st.AcceptVec)
    · intro k R _
      refine ⟨?_, rfl, rfl⟩
      simp [rejMask]
    · exact allAccepted_good x
  obtain ⟨h1, h2, h3⟩ := key
  have hacc : (PeirceCriteria erfc x m).res.AcceptVec.length = x.length := by
    rw [h2, List.length_map, h1]
  refine ⟨h1, hacc, h2, h3, ?_⟩
  rw [h3, maskFilter_length x _ hacc]

/-- Claim C2 (monotonic rejection): along the committed rounds of a run
the rejected counts strictly increase, starting strictly above 0, and
each committed rejection mask contains the previously committed one. -/
theorem peirce_trace_monotone (erfc : ℝ → ℝ) (x : List ℝ) (m : ℤ) :
    List.Chain traceRel (0, List.replicate x.length false)
      (PeirceCriteria erfc x m).trace := by
  unfold PeirceCriteria
  rw [PeirceRun_trace]
  exact peirceGo_trace_chain (PeirceBisect erfc) x
    (x.map fun v => |v - npMean x|) (npStd1 x) x.length m 1 0 (allAccepted x)
    (List.replicate x.length false) (Or.inl ⟨rfl, rfl⟩)

/-- Claim C6 (termination bounds): the rejection loop makes at most N//2
root-finder calls, and every bisection run performs at most 100 steps. -/
theorem peirce_termination_bounds (erfc : ℝ → ℝ) (x : List ℝ) (m : ℤ) :
    ((PeirceCriteria erfc x m).rounds ≤ x.length / 2) ∧
    (∀ (N n mm : ℤ) (xl xr fxl : ℝ),
      (bisectGo (PeirceFunc erfc N n mm) 2e-12 100 xl xr fxl).2 ≤ 100) := by
  constructor
  · unfold PeirceCriteria
    rw [PeirceRun_rounds]
    have := peirceGo_rounds_le (PeirceBisect erfc) x
      (x.map fun v => |v - npMean x|) (npStd1 x) x.length m 1 0 (allAccepted x)
    omega
  · intro N n mm xl xr fxl
    exact bisectGo_steps_le (PeirceFunc erfc N n mm) 2e-12 100 xl xr fxl


/-! ### Root-finder claims and small-sample claims -/

/-- Claim C4: the root finder returns the explicit no-root indicator or a
value whose objective is within the 2e-12 tolerance, never a non-converged
approximation. -/
theorem peirce_bisect_converged (erfc : ℝ → ℝ) (N n m : ℤ) :
    PeirceBisect erfc N n m = none ∨
    ∃ R v, PeirceBisect erfc N n m = some R ∧
      PeirceFunc erfc N n m R = PVal.fin v ∧ |v| ≤ 2e-12 := by
  rcases h : PeirceBisect erfc N n m with _ | R
  · exact Or.inl rfl
  · right
    obtain ⟨⟨v, hv, hve⟩, _, _⟩ := PeirceBisect_some erfc N n m R h
    exact ⟨R, v, rfl, hv, hve⟩

/-- Claim C5: the objective function is total into {+inf, -inf, finite}:
+inf on every domain guard violation, -inf when the erfc term underflows
(guards passing), and never NaN (every value is one of the three forms). -/
theorem peirce_func_total (erfc : ℝ → ℝ) (N n m : ℤ) (R : ℝ) :
    (peirceGuardFail N n m R → PeirceFunc erfc N n m R = PVal.pinf) ∧
    (¬ peirceGuardFail N n m R → erfc (R / Real.sqrt 2) ≤ 1e-300 →
      PeirceFunc erfc N n m R = PVal.ninf) ∧
    (PeirceFunc erfc N n m R = PVal.pinf ∨ PeirceFunc erfc N n m R = PVal.ninf ∨
      ∃ v, PeirceFunc erfc N n m R = PVal.fin v) := by
  refine ⟨PeirceFunc_pinf erfc N n m R, PeirceFunc_ninf erfc N n m R, ?_⟩
  rcases hv : PeirceFunc erfc N n m R with _ | _ | v
  · exact Or.inl rfl
  · exact Or.inr (Or.inl rfl)
  · exact Or.inr (Or.inr ⟨v, rfl⟩)

/-- Claim C10: a returned threshold lies strictly inside the bracket
(0.1, sqrt((N-m)/n)), and consequently a sample point whose residual is at
most 0.1 times the standard deviation is never rejected. -/
theorem peirce_bracket_bound (erfc : ℝ → ℝ) :
    (∀ N n m : ℤ, PeirceBisect erfc N n m = none ∨
      ∃ R, PeirceBisect erfc N n m = some R ∧ 0.1 < R ∧
        R < Real.sqrt (((N : ℝ) - (m : ℝ)) / (n : ℝ))) ∧
    (∀ (x : List ℝ) (m : ℤ) (i : ℕ) (xi : ℝ),
      x[i]? = some xi → |xi - npMean x| ≤ 0.1 * npStd1 x →
      (PeirceCriteria erfc x m).res.RejVec[i]? = some false) := by
  constructor
  · intro N n m
    rcases h : PeirceBisect erfc N n m with _ | R
    · exact Or.inl rfl
    · exact Or.inr ⟨R, rfl, (PeirceBisect_some erfc N n m R h).2⟩
  · intro x m i xi hxi hres
    have hilt : i < x.length := by
      by_contra hge
      rw [List.getElem?_eq_none (by omega)] at hxi
      exact Option.noConfusion hxi
    have hP : (PeirceCriteria erfc x m).res.RejVec = List.replicate x.length false ∨
        ∃ R, 0.1 < R ∧ (PeirceCriteria erfc x m).res.RejVec
          = rejMask (x.map fun v => |v - npMean x|) (npStd1 x) R := by
      apply PeirceRun_res_inv (PeirceBisect erfc) x m
        (fun st => st.RejVec = List.replicate x.length false ∨
          ∃ R, 0.1 < R ∧ st.RejVec
            = rejMask (x.map fun v => |v - npMean x|) (npStd1 x) R)
      · intro k R hk
        exact Or.inr ⟨R, (PeirceBisect_some erfc _ _ _ R hk).2.1, rfl⟩
      · exact Or.inl rfl
    rcases hP with hrep | ⟨R, hR, hrej⟩
    · rw [hrep, List.getElem?_replicate, if_pos hilt]
    · rw [hrej]
      have hsig : 0 ≤ npStd1 x := Real.sqrt_nonneg _
      have hcond : ¬ (npStd1 x * R < |xi - npMean x|) := by
        push_neg
        nlinarith
      simp only [rejMask, List.getElem?_map, hxi, Option.map_some']
      rw [if_neg hcond]

/-- Claim C3: a sample with fewer than m+2 elements (in particular an
empty sample or a negative m that makes the bound trivial) produces the
all-accepted result without any failure. -/
theorem peirce_small_sample_clean (erfc : ℝ → ℝ) (x : List ℝ) (m : ℤ)
    (h : (x.length : ℤ) < m + 2) :
    (PeirceCriteria erfc x m).res = allAccepted x := by
  unfold PeirceCriteria PeirceRun
  dsimp only
  by_cases hN : x.length / 2 ≤ 1
  · rw [peirceGo_exhausted _ _ _ _ _ _ _ _ _ hN]
    simp
  · have hb : PeirceBisect erfc (x.length : ℤ) ((1 : ℕ) : ℤ) m = none := by
      rw [Nat.cast_one]
      exact PeirceBisect_none_small erfc _ m (by omega)
    rw [peirceGo_unsolvable _ _ _ _ _ _ _ _ _ hN hb]
    simp

/-- Witness for C3 at the empty sample and m = 0. -/
theorem peirce_small_sample_clean_witness :
    ((List.length ([] : List ℝ) : ℤ) < 0 + 2) ∧
    (PeirceCriteria (fun _ => 0) ([] : List ℝ) 0).res = allAccepted ([] : List ℝ) :=
  ⟨by norm_num, peirce_small_sample_clean (fun _ => 0) [] 0 (by norm_num)⟩

/-- Claim C8: for N <= 2 or N // 2 <= 1 the engine terminates in the
Exhausted state on the first round (zero root-finder calls, no committed
round) with the all-accepted result. -/
theorem peirce_small_sample_exhausted (erfc : ℝ → ℝ) (x : List ℝ) (m : ℤ)
    (h : x.length ≤ 2 ∨ x.length / 2 ≤ 1) :
    PeirceCriteria erfc x m = ⟨allAccepted x, 0, TermReason.exhausted, 0, []⟩ := by
  have hN : x.length / 2 ≤ 1 := by omega
  unfold PeirceCriteria PeirceRun
  dsimp only
  rw [peirceGo_exhausted _ _ _ _ _ _ _ _ _ hN]
  simp

/-- Witness for C8 at the two-point sample [1, 2] and m = 1. -/
theorem peirce_small_sample_exhausted_witness :
    (([(1 : ℝ), 2]).length ≤ 2 ∨ ([(1 : ℝ), 2]).length / 2 ≤ 1) ∧
    PeirceCriteria (fun _ => 0) [(1 : ℝ), 2] 1
      = ⟨allAccepted [(1 : ℝ), 2], 0, TermReason.exhausted, 0, []⟩ :=
  ⟨Or.inl (by norm_num), peirce_small_sample_exhausted (fun _ => 0) [(1 : ℝ), 2] 1
    (Or.inl (by norm_num))⟩


/-! ### Constant-sample claim -/

theorem npMean_const (x : List ℝ) (c : ℝ) (hx : x.length ≠ 0)
    (h : ∀ v ∈ x, v = c) : npMean x = c := by
  unfold npMean
  rw [List.sum_eq_card_nsmul x c h]
  have hc : (x.length : ℝ) ≠ 0 := Nat.cast_ne_zero.mpr hx
  rw [nsmul_eq_mul]
  field_simp

theorem npStd1_const (x : List ℝ) (c : ℝ) (hx : x.length ≠ 0)
    (h : ∀ v ∈ x, v = c) : npStd1 x = 0 := by
  unfold npStd1
  have hz : (x.map fun v => (v - npMean x) ^ 2).sum = 0 := by
    apply List.sum_eq_zero
    intro y hy
    obtain ⟨v, hv, rfl⟩ := List.mem_map.mp hy
    rw [h v hv, npMean_const x c hx h]
    ring
  rw [hz, zero_div, Real.sqrt_zero]

/-- Claim C7: a sample whose values are all equal gives sigma = 0, no
division by zero, termination, and the all-accepted result. -/
theorem peirce_constant_sample (erfc : ℝ → ℝ) (x : List ℝ) (m : ℤ) (c : ℝ)
    (h : ∀ v ∈ x, v = c) :
    (PeirceCriteria erfc x m).res = allAccepted x := by
  unfold PeirceCriteria PeirceRun
  dsimp only
  by_cases hN : x.length / 2 ≤ 1
  · rw [peirceGo_exhausted _ _ _ _ _ _ _ _ _ hN]
    simp
  · have hx : x.length ≠ 0 := by omega
    rcases hbis : PeirceBisect erfc (x.length : ℤ) ((1 : ℕ) : ℤ) m with _ | R
    · rw [peirceGo_unsolvable _ _ _ _ _ _ _ _ _ hN hbis]
      simp
    · have hcnt : ¬ (0 < (rejMask (x.map fun v => |v - npMean x|) (npStd1 x) R).count true) := by
        rw [Nat.not_lt, Nat.le_zero, List.count_eq_zero]
        intro hmem
        rw [rejMask, List.map_map] at hmem
        obtain ⟨v, hv, hvv⟩ := List.mem_map.mp hmem
        dsimp at hvv
        rw [npStd1_const x c hx h, npMean_const x c hx h, h v hv] at hvv
        norm_num at hvv
      rw [peirceGo_stalled _ _ _ _ _ _ _ _ _ R hN hbis hcnt]
      simp

/-- Witness for C7 at the constant sample [5, 5, 5, 5, 5] and m = 1. -/
theorem peirce_constant_sample_witness :
    (∀ v ∈ [(5 : ℝ), 5, 5, 5, 5], v = 5) ∧
    (PeirceCriteria (fun _ => 0) [(5 : ℝ), 5, 5, 5, 5] 1).res
      = allAccepted [(5 : ℝ), 5, 5, 5, 5] := by
  have h : ∀ v ∈ [(5 : ℝ), 5, 5, 5, 5], v = 5 := by
    intro v hv
    simp only [List.mem_cons, List.not_mem_nil, or_false] at hv
    rcases hv with hv | hv | hv | hv | hv <;> exact hv
  exact ⟨h, peirce_constant_sample (fun _ => 0) [(5 : ℝ), 5, 5, 5, 5] 1 5 h⟩

end BottlePlotter
